import Mathlib

/-!
Verification of the merkleization multiproof subsystem of `ssz-rs`
(`src/merkleization/multiproofs.rs`).

The functions `get_branch_indices`, `get_path_indices`, `get_helper_indices`,
`calculate_merkle_root`, `verify_merkle_proof`, `calculate_multi_merkle_root`
and `verify_merkle_multiproof` are embedded function-by-function from the
Rust source.  The hash primitive (the `sha2` crate, an outside dependency, spec section 6)
is abstracted as a parameter `hash : Node → Node → Node`, and the `Node`
type (a 32-byte value compared as raw bytes) as a type parameter
with decidable equality.  The generalized-index helpers (`parent`, `sibling`,
`get_bit`, `get_path_length`) and the error enumeration live in a module of
the repository that is not part of the given sources and are modelled from
the specification (sections 4.3 and 7).

Rust `Result` is rendered as `Except`; the multiproof reconstruction, whose
source contains `expect` calls that can abort, returns a dedicated result
type `MmrOut` with an extra `fault` outcome for an unrecoverable abort.
-/

namespace SszRs

/-- Modelled from the spec (section 7): the error taxonomy of the
merkleization subsystem.  The enumeration itself is declared in a source
file of the repository that is not part of the given sources. -/
inductive MerkleizationError where
  | InvalidGeneralizedIndex : MerkleizationError
  | InvalidProof : MerkleizationError
  | PathResolution : MerkleizationError
  deriving DecidableEq, Repr

/-- Modelled from the spec (section 4.3): `parent(i) = i / 2`.  The callers
in `multiproofs.rs` invoke it unconditionally, so it is total. -/
def parent (i : Nat) : Nat := i / 2

/-- Modelled from the spec (section 4.3): `sibling(i) = i XOR 1`. -/
def sibling (i : Nat) : Nat := i ^^^ 1

/-- Modelled from the spec (section 4.3): `get_bit(i, position)` tests bit
`position` of `i`, 0-indexed from the least significant bit. -/
def get_bit (index : Nat) (position : Nat) : Bool := Nat.testBit index position

/-- Modelled from the spec (section 4.3): `path_length(i) = floor(log2(i))`,
failing with an invalid-index error if `i = 0`. -/
def get_path_length (index : Nat) : Except MerkleizationError Nat :=
  if index = 0 then .error .InvalidGeneralizedIndex else .ok (Nat.log2 index)

/-! ### Arithmetic facts about the generalized-index operations -/

theorem two_mul_xor_one (q : Nat) : (2*q) ^^^ 1 = 2*q + 1 := by
  apply Nat.eq_of_testBit_eq
  intro i
  rw [Nat.testBit_xor]
  cases i with
  | zero => simp [Nat.testBit_zero]; omega
  | succ j =>
    rw [Nat.testBit_succ, Nat.testBit_succ, Nat.testBit_succ]
    have h1 : (2*q) / 2 = q := by omega
    have h2 : (2*q+1) / 2 = q := by omega
    have h3 : (1:Nat) / 2 = 0 := by omega
    rw [h1, h2, h3]
    simp

theorem two_mul_add_one_xor_one (q : Nat) : (2*q+1) ^^^ 1 = 2*q := by
  apply Nat.eq_of_testBit_eq
  intro i
  rw [Nat.testBit_xor]
  cases i with
  | zero => simp [Nat.testBit_zero]; omega
  | succ j =>
    rw [Nat.testBit_succ, Nat.testBit_succ, Nat.testBit_succ]
    have h1 : (2*q) / 2 = q := by omega
    have h2 : (2*q+1) / 2 = q := by omega
    have h3 : (1:Nat) / 2 = 0 := by omega
    rw [h1, h2, h3]
    simp

theorem two_mul_or_one (q : Nat) : (2*q) ||| 1 = 2*q + 1 := by
  apply Nat.eq_of_testBit_eq
  intro i
  rw [Nat.testBit_or]
  cases i with
  | zero => simp [Nat.testBit_zero]; omega
  | succ j =>
    rw [Nat.testBit_succ, Nat.testBit_succ, Nat.testBit_succ]
    have h1 : (2*q) / 2 = q := by omega
    have h2 : (2*q+1) / 2 = q := by omega
    have h3 : (1:Nat) / 2 = 0 := by omega
    rw [h1, h2, h3]
    simp

theorem two_mul_add_one_or_one (q : Nat) : (2*q+1) ||| 1 = 2*q+1 := by
  apply Nat.eq_of_testBit_eq
  intro i
  rw [Nat.testBit_or]
  cases i with
  | zero => simp [Nat.testBit_zero]; omega
  | succ j =>
    rw [Nat.testBit_succ, Nat.testBit_succ]
    have h3 : (1:Nat) / 2 = 0 := by omega
    rw [h3]
    simp

/-- The sibling of an even index is its successor, of an odd index its
predecessor. -/
theorem sibling_eq (i : Nat) : sibling i = if i % 2 = 0 then i + 1 else i - 1 := by
  rcases Nat.mod_two_eq_zero_or_one i with h | h
  · obtain ⟨q, rfl⟩ : ∃ q, i = 2*q := ⟨i / 2, by omega⟩
    simp [sibling, two_mul_xor_one, h]
  · obtain ⟨q, rfl⟩ : ∃ q, i = 2*q+1 := ⟨i / 2, by omega⟩
    have hq : (2*q+1) % 2 = 1 := by omega
    simp [sibling, two_mul_add_one_xor_one, hq]

theorem or_one_eq (i : Nat) : i ||| 1 = if i % 2 = 0 then i + 1 else i := by
  rcases Nat.mod_two_eq_zero_or_one i with h | h
  · obtain ⟨q, rfl⟩ : ∃ q, i = 2*q := ⟨i / 2, by omega⟩
    simp [two_mul_or_one, h]
  · obtain ⟨q, rfl⟩ : ∃ q, i = 2*q+1 := ⟨i / 2, by omega⟩
    have hq : (2*q+1) % 2 = 1 := by omega
    simp [two_mul_add_one_or_one, hq]

theorem sibling_sibling (i : Nat) : sibling (sibling i) = i := by
  simp [sibling, Nat.xor_assoc]

theorem parent_sibling (i : Nat) : parent (sibling i) = parent i := by
  rw [sibling_eq]
  rcases Nat.mod_two_eq_zero_or_one i with h | h <;> simp [h, parent] <;> omega

theorem sibling_lt_of_lt (i : Nat) (h : 1 < i) : sibling (parent i) < i := by
  rw [sibling_eq]
  unfold parent
  split <;> omega

theorem parent_lt (i : Nat) (h : 1 < i) : parent i < i := by
  unfold parent; omega

theorem one_le_sibling_iff (i : Nat) : 2 ≤ sibling i ↔ 2 ≤ i := by
  rw [sibling_eq]; split <;> omega

/-- The right child `k ||| 1` and its sibling are exactly `k` and
`sibling k`, in an order determined by the parity of `k`. -/
theorem or_one_sibling_cases (k : Nat) :
    (sibling (k ||| 1) = k ∧ k ||| 1 = sibling k) ∨
    (sibling (k ||| 1) = sibling k ∧ k ||| 1 = k) := by
  rw [or_one_eq, sibling_eq, sibling_eq]
  rcases Nat.mod_two_eq_zero_or_one k with h | h
  · left
    constructor
    · simp [h, Nat.add_mod]
    · simp [h]
  · right
    constructor
    · simp [h]
    · simp [h]

theorem parent_or_one (k : Nat) : parent (k ||| 1) = parent k := by
  rw [or_one_eq]
  unfold parent
  split <;> omega

theorem log2_rec {n : Nat} (h : 2 ≤ n) : Nat.log2 n = Nat.log2 (n / 2) + 1 := by
  rw [Nat.log2]
  simp [h]

theorem log2_lt_two (n : Nat) (h : n < 2) : Nat.log2 n = 0 := by
  rw [Nat.log2]
  simp [Nat.not_le.mpr h]

theorem log2_pos {n : Nat} (h : 2 ≤ n) : 1 ≤ Nat.log2 n := by
  rw [log2_rec h]; omega

/-! ### Branch and path index enumeration (`multiproofs.rs` lines 11-31) -/

/-- Fuel-indexed form of the loop of `get_branch_indices`.  The focus
strictly decreases, so `focus` itself is always enough fuel; the fuel
only makes the recursion structural. -/
def branchLoopAux : Nat → Nat → List Nat
  | 0, _ => []
  | fuel + 1, focus =>
    if 1 < focus then
      let next := sibling (parent focus)
      next :: branchLoopAux fuel next
    else []

/-- Loop body of `get_branch_indices`: repeatedly replace the focus by the
sibling of its parent while it is above the root, collecting each new
focus. -/
def branchLoop (focus : Nat) : List Nat := branchLoopAux focus focus

theorem branchLoopAux_congr :
    ∀ (fuel₁ : Nat) (fuel₂ focus : Nat), focus ≤ fuel₁ → focus ≤ fuel₂ →
    branchLoopAux fuel₁ focus = branchLoopAux fuel₂ focus := by
  intro fuel₁
  induction fuel₁ with
  | zero =>
    intro fuel₂ focus h1 _
    interval_cases focus
    cases fuel₂ with
    | zero => rfl
    | succ f => simp [branchLoopAux]
  | succ f₁ ih =>
    intro fuel₂ focus h1 h2
    cases fuel₂ with
    | zero =>
      interval_cases focus
      simp [branchLoopAux]
    | succ f₂ =>
      show branchLoopAux (f₁ + 1) focus = branchLoopAux (f₂ + 1) focus
      unfold branchLoopAux
      by_cases hf : 1 < focus
      · simp only [hf, if_true]
        have hlt : sibling (parent focus) < focus := sibling_lt_of_lt focus hf
        rw [ih f₂ (sibling (parent focus)) (by omega) (by omega)]
      · simp [hf]

/-- The loop of `get_branch_indices` satisfies its defining recurrence. -/
theorem branchLoop_eq (focus : Nat) :
    branchLoop focus =
      if 1 < focus then sibling (parent focus) :: branchLoop (sibling (parent focus))
      else [] := by
  cases focus with
  | zero =>
    show branchLoopAux 0 0 = _
    simp [branchLoopAux]
  | succ f =>
    show branchLoopAux (f + 1) (f + 1) = _
    rw [show branchLoopAux (f + 1) (f + 1) =
      (if 1 < f + 1 then
        sibling (parent (f + 1)) :: branchLoopAux f (sibling (parent (f + 1)))
      else []) from rfl]
    by_cases hf : 1 < f + 1
    · have hlt : sibling (parent (f + 1)) < f + 1 := sibling_lt_of_lt (f + 1) hf
      simp only [hf, if_true]
      exact congrArg _ (branchLoopAux_congr f _ _ (by omega) (by omega))
    · simp [hf]

/-- Embedding of `get_branch_indices`: the sibling chain from `tree_index`
up to the root, with the final element removed. -/
def get_branch_indices (tree_index : Nat) : List Nat :=
  (sibling tree_index :: branchLoop (sibling tree_index)).dropLast

/-- Fuel-indexed form of the loop of `get_path_indices`. -/
def pathLoopAux : Nat → Nat → List Nat
  | 0, _ => []
  | fuel + 1, focus =>
    if 1 < focus then
      parent focus :: pathLoopAux fuel (parent focus)
    else []

/-- Loop body of `get_path_indices`: repeatedly replace the focus by its
parent while it is above the root, collecting each new focus. -/
def pathLoop (focus : Nat) : List Nat := pathLoopAux focus focus

theorem pathLoopAux_congr :
    ∀ (fuel₁ : Nat) (fuel₂ focus : Nat), focus ≤ fuel₁ → focus ≤ fuel₂ →
    pathLoopAux fuel₁ focus = pathLoopAux fuel₂ focus := by
  intro fuel₁
  induction fuel₁ with
  | zero =>
    intro fuel₂ focus h1 _
    interval_cases focus
    cases fuel₂ with
    | zero => rfl
    | succ f => simp [pathLoopAux]
  | succ f₁ ih =>
    intro fuel₂ focus h1 h2
    cases fuel₂ with
    | zero =>
      interval_cases focus
      simp [pathLoopAux]
    | succ f₂ =>
      show pathLoopAux (f₁ + 1) focus = pathLoopAux (f₂ + 1) focus
      unfold pathLoopAux
      by_cases hf : 1 < focus
      · simp only [hf, if_true]
        have hlt : parent focus < focus := parent_lt focus hf
        rw [ih f₂ (parent focus) (by omega) (by omega)]
      · simp [hf]

/-- The loop of `get_path_indices` satisfies its defining recurrence. -/
theorem pathLoop_eq (focus : Nat) :
    pathLoop focus =
      if 1 < focus then parent focus :: pathLoop (parent focus)
      else [] := by
  cases focus with
  | zero =>
    show pathLoopAux 0 0 = _
    simp [pathLoopAux]
  | succ f =>
    show pathLoopAux (f + 1) (f + 1) = _
    rw [show pathLoopAux (f + 1) (f + 1) =
      (if 1 < f + 1 then parent (f + 1) :: pathLoopAux f (parent (f + 1))
      else []) from rfl]
    by_cases hf : 1 < f + 1
    · have hlt : parent (f + 1) < f + 1 := parent_lt (f + 1) hf
      simp only [hf, if_true]
      exact congrArg _ (pathLoopAux_congr f _ _ (by omega) (by omega))
    · simp [hf]

/-- Embedding of `get_path_indices`: the index and its ancestor chain up to
the root, with the final element removed. -/
def get_path_indices (tree_index : Nat) : List Nat :=
  (tree_index :: pathLoop tree_index).dropLast

theorem branchLoop_le_one {focus : Nat} (h : focus ≤ 1) : branchLoop focus = [] := by
  rw [branchLoop_eq]
  simp [Nat.not_lt.mpr h]

theorem pathLoop_le_one {focus : Nat} (h : focus ≤ 1) : pathLoop focus = [] := by
  rw [pathLoop_eq]
  simp [Nat.not_lt.mpr h]

theorem dropLast_cons_of_ne_nil {α : Type} (a : α) {l : List α} (h : l ≠ []) :
    (a :: l).dropLast = a :: l.dropLast := by
  cases l with
  | nil => exact absurd rfl h
  | cons b t => rfl

theorem get_branch_indices_one : get_branch_indices 1 = [] := by
  have h0 : sibling 1 = 0 := by decide
  simp [get_branch_indices, h0, branchLoop_le_one (by omega : (0:Nat) ≤ 1)]

theorem get_path_indices_one : get_path_indices 1 = [] := by
  simp [get_path_indices, pathLoop_le_one (by omega : (1:Nat) ≤ 1)]

theorem get_branch_indices_zero : get_branch_indices 0 = [] := by
  have h0 : sibling 0 = 1 := by decide
  simp [get_branch_indices, h0, branchLoop_le_one (by omega : (1:Nat) ≤ 1)]

theorem get_path_indices_zero : get_path_indices 0 = [] := by
  simp [get_path_indices, pathLoop_le_one (by omega : (0:Nat) ≤ 1)]

theorem branchLoop_ne_nil {focus : Nat} (h : 2 ≤ focus) : branchLoop focus ≠ [] := by
  rw [branchLoop_eq]
  simp [show 1 < focus from h]

theorem pathLoop_ne_nil {focus : Nat} (h : 2 ≤ focus) : pathLoop focus ≠ [] := by
  rw [pathLoop_eq]
  simp [show 1 < focus from h]

/-- For indices strictly below the root's children, the branch-index list
decomposes as the sibling followed by the parent's branch indices. -/
theorem get_branch_indices_cons {i : Nat} (h : 2 ≤ i) :
    get_branch_indices i = sibling i :: get_branch_indices (parent i) := by
  have hsib : 2 ≤ sibling i := (one_le_sibling_iff i).mpr h
  have hstep : branchLoop (sibling i) =
      sibling (parent i) :: branchLoop (sibling (parent i)) := by
    rw [branchLoop_eq]
    simp [show 1 < sibling i from hsib, parent_sibling]
  unfold get_branch_indices
  rw [hstep]
  by_cases hp : 2 ≤ sibling (parent i)
  · rw [dropLast_cons_of_ne_nil _ (by simp [branchLoop_ne_nil hp])]
  · have : branchLoop (sibling (parent i)) = [] := branchLoop_le_one (by omega)
    rw [this]
    rfl

theorem get_path_indices_cons {i : Nat} (h : 2 ≤ i) :
    get_path_indices i = i :: get_path_indices (parent i) := by
  have hstep : pathLoop i = parent i :: pathLoop (parent i) := by
    rw [pathLoop_eq]
    simp [show 1 < i from h]
  unfold get_path_indices
  rw [hstep]
  by_cases hp : 2 ≤ parent i
  · rw [dropLast_cons_of_ne_nil _ (by simp [pathLoop_ne_nil hp])]
  · have : pathLoop (parent i) = [] := pathLoop_le_one (by omega)
    rw [this]
    rfl

theorem get_branch_indices_length {i : Nat} (h : 1 ≤ i) :
    (get_branch_indices i).length = Nat.log2 i := by
  induction i using Nat.strong_induction_on with
  | _ i ih =>
    by_cases h2 : 2 ≤ i
    · rw [get_branch_indices_cons h2, log2_rec h2]
      have hrec := ih (parent i) (parent_lt i (by omega)) (by unfold parent; omega)
      simp only [List.length_cons, hrec]
      unfold parent
      omega
    · have : i = 1 := by omega
      subst this
      simp [get_branch_indices_one, log2_lt_two 1 (by omega)]

/-- Membership in the path indices: exactly the iterated parents strictly
above which the root is never included. -/
theorem mem_get_path_indices_iff {t : Nat} (ht : 1 ≤ t) (x : Nat) :
    x ∈ get_path_indices t ↔ ∃ m, m < Nat.log2 t ∧ x = t / 2 ^ m := by
  induction t using Nat.strong_induction_on with
  | _ t ih =>
    by_cases h2 : 2 ≤ t
    · rw [get_path_indices_cons h2, log2_rec h2]
      have hrec := ih (parent t) (parent_lt t (by omega)) (by unfold parent; omega)
      constructor
      · intro hx
        rcases List.mem_cons.mp hx with rfl | hx
        · exact ⟨0, by omega, by simp⟩
        · obtain ⟨m, hm, rfl⟩ := hrec.mp hx
          refine ⟨m + 1, by unfold parent at hm; omega, ?_⟩
          unfold parent
          rw [Nat.div_div_eq_div_mul, pow_succ]
          ring_nf
      · rintro ⟨m, hm, rfl⟩
        cases m with
        | zero => simp
        | succ m' =>
          apply List.mem_cons_of_mem
          apply hrec.mpr
          refine ⟨m', by unfold parent; omega, ?_⟩
          unfold parent
          rw [Nat.div_div_eq_div_mul, pow_succ]
          ring_nf
    · have : t = 1 := by omega
      subst this
      simp [get_path_indices_one, log2_lt_two 1 (by omega)]

/-- Membership in the branch indices: exactly the siblings of the iterated
parents below the root. -/
theorem mem_get_branch_indices_iff {t : Nat} (ht : 1 ≤ t) (x : Nat) :
    x ∈ get_branch_indices t ↔ ∃ m, m < Nat.log2 t ∧ x = sibling (t / 2 ^ m) := by
  induction t using Nat.strong_induction_on with
  | _ t ih =>
    by_cases h2 : 2 ≤ t
    · rw [get_branch_indices_cons h2, log2_rec h2]
      have hrec := ih (parent t) (parent_lt t (by omega)) (by unfold parent; omega)
      constructor
      · intro hx
        rcases List.mem_cons.mp hx with rfl | hx
        · exact ⟨0, by omega, by simp⟩
        · obtain ⟨m, hm, rfl⟩ := hrec.mp hx
          refine ⟨m + 1, by unfold parent at hm; omega, ?_⟩
          unfold parent
          rw [Nat.div_div_eq_div_mul, pow_succ]
          ring_nf
      · rintro ⟨m, hm, rfl⟩
        cases m with
        | zero => simp
        | succ m' =>
          apply List.mem_cons_of_mem
          apply hrec.mpr
          refine ⟨m', by unfold parent; omega, ?_⟩
          unfold parent
          rw [Nat.div_div_eq_div_mul, pow_succ]
          ring_nf
    · have : t = 1 := by omega
      subst this
      simp [get_branch_indices_one, log2_lt_two 1 (by omega)]

/-! ### Hash-set model and the helper-index computation
(`multiproofs.rs` lines 34-51) -/

/-- Insertion into a duplicate-free list, modelling `HashSet::insert`. -/
def setInsert (s : List Nat) (x : Nat) : List Nat :=
  if x ∈ s then s else s ++ [x]

/-- Modelling `HashSet::extend` over an iterator. -/
def extendSet (s : List Nat) (l : List Nat) : List Nat :=
  l.foldl setInsert s

theorem mem_setInsert (s : List Nat) (x y : Nat) :
    y ∈ setInsert s x ↔ y ∈ s ∨ y = x := by
  unfold setInsert
  split
  · rename_i hx
    constructor
    · exact .inl
    · rintro (h | rfl)
      · exact h
      · exact hx
  · simp

theorem mem_extendSet (l : List Nat) : ∀ (s : List Nat) (y : Nat),
    y ∈ extendSet s l ↔ y ∈ s ∨ y ∈ l := by
  induction l with
  | nil => simp [extendSet]
  | cons a t ih =>
    intro s y
    show y ∈ extendSet (setInsert s a) t ↔ _
    rw [ih, mem_setInsert]
    simp [or_assoc, or_comm, or_left_comm]

theorem nodup_setInsert {s : List Nat} (h : s.Nodup) (x : Nat) :
    (setInsert s x).Nodup := by
  unfold setInsert
  split
  · exact h
  · rename_i hx
    simp [List.nodup_append, h, hx]

theorem nodup_extendSet (l : List Nat) : ∀ {s : List Nat}, s.Nodup →
    (extendSet s l).Nodup := by
  induction l with
  | nil => intro s h; exact h
  | cons a t ih =>
    intro s h
    exact ih (nodup_setInsert h a)

/-- Relation used to sort generalized indices in descending order via
`sort_by(|a, b| b.cmp(a))`. -/
def descRel (a b : Nat) : Prop := b ≤ a

instance : DecidableRel descRel := fun a b => Nat.decLe b a

instance : IsTotal Nat descRel := ⟨fun a b => Nat.le_total b a⟩

instance : IsTrans Nat descRel := ⟨fun _ _ _ h1 h2 => Nat.le_trans h2 h1⟩

/-- Descending sort of a list of indices. -/
def sortDesc (l : List Nat) : List Nat := List.insertionSort descRel l

/-- The single pass of `get_helper_indices` over the targets, accumulating
the set of all branch indices and the set of all path indices. -/
def helperSets (indices : List Nat) : List Nat × List Nat :=
  indices.foldl
    (fun (acc : List Nat × List Nat) index =>
      (extendSet acc.1 (get_branch_indices index),
       extendSet acc.2 (get_path_indices index)))
    ([], [])

/-- Embedding of `get_helper_indices`: accumulate all branch indices and
all path indices of the targets into two sets, take the difference, and
sort it descending. -/
def get_helper_indices (indices : List Nat) : List Nat :=
  sortDesc ((helperSets indices).1.filter
    (fun x => !(x ∈ (helperSets indices).2 : Bool)))

theorem helper_fold_mem (indices : List Nat) :
    ∀ (acc : List Nat × List Nat) (y : Nat),
    (y ∈ (indices.foldl
      (fun (acc : List Nat × List Nat) index =>
        (extendSet acc.1 (get_branch_indices index),
         extendSet acc.2 (get_path_indices index))) acc).1 ↔
      y ∈ acc.1 ∨ ∃ t ∈ indices, y ∈ get_branch_indices t) ∧
    (y ∈ (indices.foldl
      (fun (acc : List Nat × List Nat) index =>
        (extendSet acc.1 (get_branch_indices index),
         extendSet acc.2 (get_path_indices index))) acc).2 ↔
      y ∈ acc.2 ∨ ∃ t ∈ indices, y ∈ get_path_indices t) := by
  induction indices with
  | nil => simp
  | cons a t ih =>
    intro acc y
    constructor
    · rw [List.foldl_cons, (ih _ y).1]
      simp only [mem_extendSet]
      constructor
      · rintro ((h | h) | ⟨u, hu, hy⟩)
        · exact .inl h
        · exact .inr ⟨a, by simp, h⟩
        · exact .inr ⟨u, by simp [hu], hy⟩
      · rintro (h | ⟨u, hu, hy⟩)
        · exact .inl (.inl h)
        · rcases List.mem_cons.mp hu with rfl | hu
          · exact .inl (.inr hy)
          · exact .inr ⟨u, hu, hy⟩
    · rw [List.foldl_cons, (ih _ y).2]
      simp only [mem_extendSet]
      constructor
      · rintro ((h | h) | ⟨u, hu, hy⟩)
        · exact .inl h
        · exact .inr ⟨a, by simp, h⟩
        · exact .inr ⟨u, by simp [hu], hy⟩
      · rintro (h | ⟨u, hu, hy⟩)
        · exact .inl (.inl h)
        · rcases List.mem_cons.mp hu with rfl | hu
          · exact .inl (.inr hy)
          · exact .inr ⟨u, hu, hy⟩

theorem mem_helperSets_fst (indices : List Nat) (y : Nat) :
    y ∈ (helperSets indices).1 ↔ ∃ t ∈ indices, y ∈ get_branch_indices t := by
  have h := (helper_fold_mem indices ([], []) y).1
  simpa [helperSets] using h

theorem mem_helperSets_snd (indices : List Nat) (y : Nat) :
    y ∈ (helperSets indices).2 ↔ ∃ t ∈ indices, y ∈ get_path_indices t := by
  have h := (helper_fold_mem indices ([], []) y).2
  simpa [helperSets] using h

theorem helperSets_fst_nodup (indices : List Nat) : (helperSets indices).1.Nodup := by
  unfold helperSets
  generalize hacc : (([], []) : List Nat × List Nat) = acc
  have hn : acc.1.Nodup := by rw [← hacc]; simp
  clear hacc
  induction indices generalizing acc with
  | nil => exact hn
  | cons a t ih =>
    rw [List.foldl_cons]
    exact ih _ (nodup_extendSet _ hn)

/-- Membership in the computed helper set: a helper index is a branch index
of some target that is a path index of no target. -/
theorem mem_get_helper_indices_iff (indices : List Nat) (x : Nat) :
    x ∈ get_helper_indices indices ↔
      (∃ t ∈ indices, x ∈ get_branch_indices t) ∧
      ¬ ∃ t ∈ indices, x ∈ get_path_indices t := by
  unfold get_helper_indices sortDesc
  rw [List.Perm.mem_iff (List.perm_insertionSort descRel _)]
  rw [List.mem_filter]
  rw [mem_helperSets_fst]
  constructor
  · rintro ⟨hb, hp⟩
    refine ⟨hb, ?_⟩
    rw [← mem_helperSets_snd]
    simpa using hp
  · rintro ⟨hb, hp⟩
    refine ⟨hb, ?_⟩
    rw [← mem_helperSets_snd indices x] at hp
    simpa using hp

theorem get_helper_indices_nodup (indices : List Nat) :
    (get_helper_indices indices).Nodup := by
  unfold get_helper_indices sortDesc
  exact (List.perm_insertionSort descRel _).symm.nodup
    (List.Nodup.filter _ (helperSets_fst_nodup indices))

theorem get_helper_indices_sorted (indices : List Nat) :
    (get_helper_indices indices).Sorted (· > ·) := by
  have hsorted : (get_helper_indices indices).Sorted descRel := by
    unfold get_helper_indices sortDesc
    exact List.sorted_insertionSort descRel _
  have hpair := hsorted.and (get_helper_indices_nodup indices)
  exact hpair.imp (fun {a b} h => by
    have h1 : descRel a b := h.1
    have h2 : a ≠ b := h.2
    unfold descRel at h1
    omega)

/-! ### Small concrete values of `Nat.log2`, used by closed witnesses -/

theorem log2_one : Nat.log2 1 = 0 := log2_lt_two 1 (by omega)

theorem log2_two : Nat.log2 2 = 1 := by
  rw [log2_rec (by omega)]
  norm_num [log2_one]

/-! ### Single-leaf verification (`multiproofs.rs` lines 53-89) -/

section SingleProof

variable {Node : Type} [DecidableEq Node] [Inhabited Node]
variable (hash : Node → Node → Node)

/-- The hashing loop of `calculate_merkle_root`: `result` starts at the
leaf and each proof element is combined with it on the side selected by
the corresponding bit of the index, with `i` the enumeration counter. -/
def merkleFold (index : Nat) : Nat → Node → List Node → Node
  | _, result, [] => result
  | i, result, next :: rest =>
      merkleFold index (i+1)
        (if get_bit index i then hash next result else hash result next) rest

/-- Embedding of `calculate_merkle_root`: check the proof length against
the path length of the index, then run the hashing loop. -/
def calculate_merkle_root (leaf : Node) (proof : List Node) (index : Nat) :
    Except MerkleizationError Node :=
  match get_path_length index with
  | .error e => .error e
  | .ok path_length =>
    if path_length ≠ proof.length then .error .InvalidProof
    else .ok (merkleFold hash index 0 leaf proof)

/-- Embedding of `verify_merkle_proof`: recompute the root and compare it
with the claimed root. -/
def verify_merkle_proof (leaf : Node) (proof : List Node) (index : Nat)
    (root : Node) : Except MerkleizationError Unit :=
  match calculate_merkle_root hash leaf proof index with
  | .error e => .error e
  | .ok r => if r = root then .ok () else .error .InvalidProof

/-- The fold described by the specification, phrased over the enumerated
proof: at ascending level `i`, hash `(proof_element, result)` if bit `i`
of the index is set and `(result, proof_element)` otherwise. -/
def foldProofSpec (index : Nat) (leaf : Node) (proof : List Node) : Node :=
  proof.enum.foldl
    (fun result p => if get_bit index p.1 then hash p.2 result else hash result p.2)
    leaf

/-- The complete binary hash tree of depth `d` over a sequence of leaves,
addressed by generalized index: index `1` is the root, indices at or
beyond `2 ^ d` are leaves, and every inner node is the hash of its two
children. -/
def treeNode (d : Nat) (leaves : Nat → Node) (i : Nat) : Node :=
  if i = 0 then default
  else if 2 ^ d ≤ i then leaves (i - 2 ^ d)
  else hash (treeNode d leaves (2 * i)) (treeNode d leaves (2 * i + 1))
termination_by 2 ^ d - i
decreasing_by
  all_goals omega

theorem merkleRootEq {index : Nat} (h : 1 ≤ index)
    (leaf : Node) (proof : List Node) :
    calculate_merkle_root hash leaf proof index =
      if Nat.log2 index = proof.length
      then .ok (merkleFold hash index 0 leaf proof)
      else .error .InvalidProof := by
  unfold calculate_merkle_root get_path_length
  have hne : index ≠ 0 := by omega
  simp only [hne, if_false, ite_not]

theorem merkleFold_shift (index : Nat) :
    ∀ (l : List Node) (j : Nat) (r : Node),
    merkleFold hash index (j + 1) r l = merkleFold hash (index / 2) j r l := by
  intro l
  induction l with
  | nil => intro j r; rfl
  | cons next rest ih =>
    intro j r
    show merkleFold hash index (j + 2) _ rest = merkleFold hash (index / 2) (j + 1) _ rest
    have hbit : get_bit index (j + 1) = get_bit (index / 2) j := by
      unfold get_bit
      exact Nat.testBit_succ index j
    rw [hbit, ih]

theorem merkleFold_enumFrom (index : Nat) :
    ∀ (l : List Node) (j : Nat) (r : Node),
    merkleFold hash index j r l = (List.enumFrom j l).foldl
      (fun result p => if get_bit index p.1 then hash p.2 result else hash result p.2)
      r := by
  intro l
  induction l with
  | nil => intro j r; rfl
  | cons next rest ih =>
    intro j r
    show merkleFold hash index (j+1) _ rest = _
    rw [ih]
    rfl

theorem treeNode_leaf (d : Nat) (leaves : Nat → Node) {i : Nat} (h : 2 ^ d ≤ i) :
    treeNode hash d leaves i = leaves (i - 2 ^ d) := by
  have h0 : i ≠ 0 := by
    have := Nat.one_le_two_pow (n := d)
    omega
  rw [treeNode]
  simp [h0, h]

theorem treeNode_inner (d : Nat) (leaves : Nat → Node) {i : Nat}
    (h1 : 1 ≤ i) (h2 : i < 2 ^ d) :
    treeNode hash d leaves i =
      hash (treeNode hash d leaves (2 * i)) (treeNode hash d leaves (2 * i + 1)) := by
  rw [treeNode]
  simp [show i ≠ 0 by omega, Nat.not_le.mpr h2]

/-- Folding the branch nodes of `i` up from the node at `i` reconstructs
the root of the tree. -/
theorem merkleFold_branch (d : Nat) (leaves : Nat → Node) :
    ∀ i, 1 ≤ i → i < 2 ^ (d + 1) →
    merkleFold hash i 0 (treeNode hash d leaves i)
        ((get_branch_indices i).map (treeNode hash d leaves)) =
      treeNode hash d leaves 1 := by
  intro i
  induction i using Nat.strong_induction_on with
  | _ i ih =>
    intro h1 h2
    by_cases hge : 2 ≤ i
    · rw [get_branch_indices_cons hge, List.map_cons]
      show merkleFold hash i 1
        (if get_bit i 0 then hash (treeNode hash d leaves (sibling i)) (treeNode hash d leaves i)
         else hash (treeNode hash d leaves i) (treeNode hash d leaves (sibling i))) _ = _
      have hparent1 : 1 ≤ parent i := by unfold parent; omega
      have hparent2 : parent i < 2 ^ d := by
        unfold parent
        rw [pow_succ] at h2
        omega
      have hstep : (if get_bit i 0
            then hash (treeNode hash d leaves (sibling i)) (treeNode hash d leaves i)
            else hash (treeNode hash d leaves i) (treeNode hash d leaves (sibling i))) =
          treeNode hash d leaves (parent i) := by
        rw [treeNode_inner hash d leaves hparent1 hparent2]
        rcases Nat.mod_two_eq_zero_or_one i with hpar | hpar
        · have hbit : get_bit i 0 = false := by
            unfold get_bit
            rw [Nat.testBit_zero]
            simp [hpar]
          have hsib : sibling i = i + 1 := by rw [sibling_eq]; simp [hpar]
          have hleft : 2 * parent i = i := by unfold parent; omega
          have hright : 2 * parent i + 1 = i + 1 := by unfold parent; omega
          rw [hbit, hsib, hright, hleft]
          simp
        · have hbit : get_bit i 0 = true := by
            unfold get_bit
            rw [Nat.testBit_zero]
            simp [hpar]
          have hsib : sibling i = i - 1 := by rw [sibling_eq]; simp [hpar]
          have hleft : 2 * parent i = i - 1 := by unfold parent; omega
          have hright : 2 * parent i + 1 = i := by unfold parent; omega
          rw [hbit, hsib, hright, hleft]
          simp
      rw [hstep, merkleFold_shift]
      exact ih (parent i) (parent_lt i (by omega)) hparent1 (by unfold parent at hparent2 ⊢; omega)
    · have : i = 1 := by omega
      subst this
      rw [get_branch_indices_one]
      rfl

end SingleProof

/-- A concrete stand-in hash function over natural-number nodes, used by
closed witness instances. -/
def natHash (a b : Nat) : Nat := 2 * a + 3 * b + 1

/-- C2: for every complete binary hash tree built by pairwise reduction
from the leaves of depth `d` and every leaf generalized index `i` of that
tree, resolving the positions returned by `get_branch_indices i` to the
tree's nodes yields a proof accepted by `verify_merkle_proof` against the
computed root. -/
theorem claim_C2 {Node : Type} [DecidableEq Node] [Inhabited Node]
    (hash : Node → Node → Node) (d : Nat) (leaves : Nat → Node) (i : Nat)
    (h1 : 2 ^ d ≤ i) (h2 : i < 2 ^ (d + 1)) :
    verify_merkle_proof hash (treeNode hash d leaves i)
      ((get_branch_indices i).map (treeNode hash d leaves)) i
      (treeNode hash d leaves 1) = .ok () := by
  have hi1 : 1 ≤ i := le_trans Nat.one_le_two_pow h1
  unfold verify_merkle_proof
  rw [merkleRootEq hash hi1]
  have hlen : Nat.log2 i = ((get_branch_indices i).map (treeNode hash d leaves)).length := by
    rw [List.length_map, get_branch_indices_length hi1]
  rw [if_pos hlen, merkleFold_branch hash d leaves i hi1 h2]
  simp

/-- Witness for C2 at depth 1, leaf index 2. -/
theorem claim_C2_witness :
    verify_merkle_proof natHash (treeNode natHash 1 id 2)
      ((get_branch_indices 2).map (treeNode natHash 1 id)) 2
      (treeNode natHash 1 id 1) = .ok () :=
  claim_C2 natHash 1 id 2 (by decide) (by decide)

/-- C5 counterexample: at index 0, single-leaf verification fails with
InvalidGeneralizedIndex, so it neither returns Ok nor fails with
InvalidProof as the claim's classification requires. -/
theorem claim_C5_counterexample :
    verify_merkle_proof natHash 0 [] 0 0 = .error .InvalidGeneralizedIndex ∧
    verify_merkle_proof natHash 0 [] 0 0 ≠ .ok () ∧
    verify_merkle_proof natHash 0 [] 0 0 ≠ .error .InvalidProof := by
  refine ⟨rfl, ?_, ?_⟩
  · intro h
    exact Except.noConfusion h
  · intro h
    have h' := Except.error.inj h
    exact MerkleizationError.noConfusion h'

/-- C5 (amended to indices at least 1, the counterexample shows index 0
fails with InvalidGeneralizedIndex instead): for every index at least 1,
verification fails with InvalidProof exactly when the proof length is not
the path length of the index or the reconstructed hash differs from the
claimed root, and returns Ok exactly otherwise. -/
theorem claim_C5_amended {Node : Type} [DecidableEq Node] [Inhabited Node]
    (hash : Node → Node → Node) (leaf : Node) (proof : List Node) (index : Nat)
    (root : Node) (h : 1 ≤ index) :
    (verify_merkle_proof hash leaf proof index root = .error .InvalidProof ↔
      (proof.length ≠ Nat.log2 index ∨ merkleFold hash index 0 leaf proof ≠ root)) ∧
    (verify_merkle_proof hash leaf proof index root = .ok () ↔
      (proof.length = Nat.log2 index ∧ merkleFold hash index 0 leaf proof = root)) := by
  unfold verify_merkle_proof
  rw [merkleRootEq hash h]
  by_cases hlen : Nat.log2 index = proof.length
  · by_cases hr : merkleFold hash index 0 leaf proof = root
    · simp [hlen, hr]
    · simp [hlen, hr]
  · simp [if_neg hlen, Ne.symm hlen]

/-- Witness for the amended C5 at index 1 with an empty proof. -/
theorem claim_C5_witness : verify_merkle_proof natHash 5 [] 1 5 = .ok () :=
  (claim_C5_amended natHash 5 [] 1 5 (by decide)).2.mpr ⟨by simp [log2_one], rfl⟩

/-- C6: whenever the proof length matches the path length of the index,
`calculate_merkle_root` returns exactly the enumerated fold that starts at
the leaf and, at each ascending level, hashes the proof element on the
side selected by the corresponding bit of the index. -/
theorem claim_C6 {Node : Type} [DecidableEq Node] [Inhabited Node]
    (hash : Node → Node → Node) (leaf : Node) (proof : List Node) (index : Nat)
    (h : get_path_length index = .ok proof.length) :
    calculate_merkle_root hash leaf proof index =
      .ok (foldProofSpec hash index leaf proof) := by
  have hne : index ≠ 0 := by
    intro h0
    subst h0
    simp [get_path_length] at h
  have hlen : Nat.log2 index = proof.length := by
    simpa [get_path_length, hne] using h
  rw [merkleRootEq hash (by omega), if_pos hlen]
  unfold foldProofSpec
  rw [show proof.enum = List.enumFrom 0 proof from rfl, ← merkleFold_enumFrom]

/-- Witness for C6 at index 2 with a single-element proof. -/
theorem claim_C6_witness :
    calculate_merkle_root natHash 3 [4] 2 = .ok (foldProofSpec natHash 2 3 [4]) :=
  claim_C6 natHash 3 [4] 2 (by simp [get_path_length, log2_two])

/-- C9: the path length of the root index 1 is 0; a zero-length proof
against index 1 verifies exactly when the claimed root equals the leaf;
any non-empty proof against index 1 fails with InvalidProof. -/
theorem claim_C9 {Node : Type} [DecidableEq Node] [Inhabited Node]
    (hash : Node → Node → Node) (leaf root : Node) :
    get_path_length 1 = .ok 0 ∧
    (verify_merkle_proof hash leaf [] 1 root = .ok () ↔ root = leaf) ∧
    (∀ proof : List Node, proof ≠ [] →
      verify_merkle_proof hash leaf proof 1 root = .error .InvalidProof) := by
  refine ⟨by simp [get_path_length, log2_one], ?_, ?_⟩
  · unfold verify_merkle_proof
    rw [merkleRootEq hash (by omega)]
    simp only [log2_one, List.length_nil, if_pos]
    by_cases hr : leaf = root
    · simp [merkleFold, hr]
    · simp [merkleFold, hr, Ne.symm hr]
  · intro proof hp
    unfold verify_merkle_proof
    rw [merkleRootEq hash (by omega)]
    have hne : Nat.log2 1 ≠ proof.length := by
      rw [log2_one]
      intro h0
      exact hp (List.eq_nil_of_length_eq_zero h0.symm)
    simp [if_neg hne]

/-- Witness for C9 with a non-empty proof against the root index. -/
theorem claim_C9_witness : verify_merkle_proof natHash 7 [3] 1 7 = .error .InvalidProof :=
  (claim_C9 natHash 7 7).2.2 [3] (by decide)

/-! ### Multiproof verification (`multiproofs.rs` lines 91-162) -/

/-- Outcome of a multiproof computation: a successful value, a declared
error, or an unrecoverable abort (a failed `expect` in the source). -/
inductive MmrOut (Node : Type) where
  | ok : Node → MmrOut Node
  | err : MerkleizationError → MmrOut Node
  | fault : MmrOut Node
  deriving DecidableEq

section MultiProof

variable {Node : Type} [DecidableEq Node] [Inhabited Node]
variable (hash : Node → Node → Node)

/-- Membership test of the `HashMap` from generalized index to node,
modelling `contains_key`. -/
def containsKey (m : List (Nat × Node)) (k : Nat) : Bool :=
  m.any (fun p => p.1 == k)

/-- Lookup in the `HashMap`, modelling `get`. -/
def lookupAssoc (m : List (Nat × Node)) (k : Nat) : Option Node :=
  (m.find? (fun p => p.1 == k)).map Prod.snd

/-- Insertion into the `HashMap`, modelling `insert` (and
`entry(..).or_default()` followed by a full overwrite): an existing
binding of the key is replaced, otherwise a new binding is appended. -/
def insertAssoc (m : List (Nat × Node)) (k : Nat) (v : Node) : List (Nat × Node) :=
  if containsKey m k then m.map (fun p => if p.1 == k then (p.1, v) else p)
  else m ++ [(k, v)]

/-- The seeding loop `for (index, node) in indices.iter().zip(leaves.iter())`,
inserting each pair into the mapping. -/
def seedPairs (m : List (Nat × Node)) : List Nat → List Node → List (Nat × Node)
  | index :: restIdx, node :: restNode => seedPairs (insertAssoc m index node) restIdx restNode
  | _, _ => m

/-- Outcome of the reconstruction scan: the fuel bound was hit (an
artifact of the embedding, proved unreachable), an `expect` in the loop
body failed, or the scan completed with a final mapping. -/
inductive ScanOut (Node : Type) where
  | outOfFuel : ScanOut Node
  | aborted : ScanOut Node
  | done : List (Nat × Node) → ScanOut Node

/-- The reconstruction scan of `calculate_multi_merkle_root`: a cursor
`pos` walks the growing work-list `keys`; whenever the current key and its
sibling are known but their parent is not, the parent node is computed by
hashing the two children in left-right order and appended to the mapping
and to the work-list. -/
def scanLoop : Nat → List (Nat × Node) → List Nat → Nat → ScanOut Node
  | 0, _, _, _ => .outOfFuel
  | fuel + 1, objects, keys, pos =>
    if pos < keys.length then
      let key := keys.getD pos 0
      let key_present := containsKey objects key
      let sibling_present := containsKey objects (sibling key)
      let parent_index := parent key
      let parent_missing := !containsKey objects parent_index
      if key_present && sibling_present && parent_missing then
        let right_index := key ||| 1
        let left_index := sibling right_index
        match lookupAssoc objects left_index, lookupAssoc objects right_index with
        | some left_input, some right_input =>
          scanLoop fuel (insertAssoc objects parent_index (hash left_input right_input))
            (keys ++ [parent_index]) (pos + 1)
        | _, _ => .aborted
      else scanLoop fuel objects keys (pos + 1)
    else .done objects

/-- Embedding of `calculate_multi_merkle_root`: validate the input
lengths, seed the mapping with the leaf and helper nodes, run the
reconstruction scan over the keys sorted descending, and look up the
root.  A failed `expect` is reported as `fault`. -/
def calculate_multi_merkle_root (leaves : List Node) (proof : List Node)
    (indices : List Nat) : MmrOut Node :=
  if leaves.length ≠ indices.length then .err .InvalidProof
  else
    let helper_indices := get_helper_indices indices
    if proof.length ≠ helper_indices.length then .err .InvalidProof
    else
      let objects := seedPairs (seedPairs [] indices leaves) helper_indices proof
      let keys := sortDesc (objects.map Prod.fst)
      match scanLoop hash (keys.length + (keys.foldr max 0 + 2)) objects keys 0 with
      | .outOfFuel => .fault
      | .aborted => .fault
      | .done final =>
        match lookupAssoc final 1 with
        | some root => .ok root
        | none => .fault

/-- Embedding of `verify_merkle_multiproof`: reconstruct the root and
compare it with the claimed root. -/
def verify_merkle_multiproof (leaves : List Node) (proof : List Node)
    (indices : List Nat) (root : Node) : MmrOut Unit :=
  match calculate_multi_merkle_root hash leaves proof indices with
  | .ok r => if r = root then .ok () else .err .InvalidProof
  | .err e => .err e
  | .fault => .fault

end MultiProof

section SeedLemmas

variable {Node : Type} [DecidableEq Node] [Inhabited Node]

/-- Replace the value bound to key `v` (if any) by `x`, leaving the key
structure of the mapping unchanged. -/
def overwriteVal (m : List (Nat × Node)) (v : Nat) (x : Node) : List (Nat × Node) :=
  m.map (fun p => if p.1 == v then (p.1, x) else p)

theorem containsKey_false_forall {m : List (Nat × Node)} {k : Nat}
    (h : containsKey m k = false) : ∀ p ∈ m, p.1 ≠ k := by
  intro p hp
  have := List.any_eq_false.mp h p hp
  simpa using this

theorem overwriteVal_eq_of_forall :
    ∀ (m : List (Nat × Node)) (v : Nat) (x : Node),
    (∀ p ∈ m, p.1 ≠ v) → overwriteVal m v x = m := by
  intro m v x
  induction m with
  | nil => intro _; rfl
  | cons p t ih =>
    intro hall
    have hp : (p.1 == v) = false := by
      simpa using hall p (List.mem_cons_self p t)
    show (if (p.1 == v) = true then (p.1, x) else p) :: overwriteVal t v x = p :: t
    rw [hp]
    simp only [Bool.false_eq_true, if_false]
    rw [ih (fun q hq => hall q (List.mem_cons_of_mem _ hq))]

theorem overwriteVal_of_not_contains {m : List (Nat × Node)} {v : Nat} (x : Node)
    (h : containsKey m v = false) : overwriteVal m v x = m :=
  overwriteVal_eq_of_forall m v x (containsKey_false_forall h)

theorem overwriteVal_append (l₁ l₂ : List (Nat × Node)) (v : Nat) (x : Node) :
    overwriteVal (l₁ ++ l₂) v x = overwriteVal l₁ v x ++ overwriteVal l₂ v x := by
  unfold overwriteVal
  exact List.map_append _ l₁ l₂

theorem containsKey_overwriteVal (m : List (Nat × Node)) (v : Nat) (x : Node) (k : Nat) :
    containsKey (overwriteVal m v x) k = containsKey m k := by
  unfold containsKey overwriteVal
  rw [List.any_map]
  have hfun : ((fun p => p.1 == k) ∘ fun p : Nat × Node =>
      if p.1 == v then (p.1, x) else p) = fun p => p.1 == k := by
    funext p
    by_cases hp : p.1 = v <;> simp [hp]
  rw [hfun]

theorem insertAssoc_overwriteVal_same (m : List (Nat × Node)) (v : Nat) (l x : Node) :
    insertAssoc (overwriteVal m v x) v l = insertAssoc m v l := by
  unfold insertAssoc
  rw [containsKey_overwriteVal]
  by_cases hc : containsKey m v = true
  · simp only [hc, if_true]
    unfold overwriteVal
    rw [List.map_map]
    have hfun : ((fun p : Nat × Node => if p.1 == v then (p.1, l) else p) ∘
        fun p : Nat × Node => if p.1 == v then (p.1, x) else p) =
        fun p : Nat × Node => if p.1 == v then (p.1, l) else p := by
      funext p
      by_cases hp : p.1 = v <;> simp [hp]
    rw [hfun]
  · have hc' : containsKey m v = false := by
      cases h : containsKey m v
      · rfl
      · exact absurd h hc
    simp only [hc', if_false, Bool.false_eq_true]
    rw [overwriteVal_of_not_contains x hc']

theorem insertAssoc_overwriteVal_other (m : List (Nat × Node)) {k v : Nat}
    (hkv : k ≠ v) (l x : Node) :
    insertAssoc (overwriteVal m v x) k l = overwriteVal (insertAssoc m k l) v x := by
  unfold insertAssoc
  rw [containsKey_overwriteVal]
  by_cases hc : containsKey m k = true
  · simp only [hc, if_true]
    unfold overwriteVal
    rw [List.map_map, List.map_map]
    have hfun : ((fun p : Nat × Node => if p.1 == k then (p.1, l) else p) ∘
        fun p : Nat × Node => if p.1 == v then (p.1, x) else p) =
        ((fun p : Nat × Node => if p.1 == v then (p.1, x) else p) ∘
        fun p : Nat × Node => if p.1 == k then (p.1, l) else p) := by
      funext p
      by_cases hpv : p.1 = v
      · simp [hpv, Ne.symm hkv]
      · by_cases hpk : p.1 = k
        · simp [hpv, hpk, hkv]
        · simp [hpv, hpk]
    rw [hfun]
  · have hc' : containsKey m k = false := by
      cases h : containsKey m k
      · rfl
      · exact absurd h hc
    simp only [hc', if_false, Bool.false_eq_true]
    rw [overwriteVal_append]
    have hsingle : overwriteVal [(k, l)] v x = [(k, l)] := by
      unfold overwriteVal
      simp [hkv]
    rw [hsingle]

theorem insertAssoc_eq_overwriteVal_insert (m : List (Nat × Node)) (v : Nat) (l x : Node) :
    insertAssoc m v x = overwriteVal (insertAssoc m v l) v x := by
  unfold insertAssoc
  by_cases hc : containsKey m v = true
  · simp only [hc, if_true]
    unfold overwriteVal
    rw [List.map_map]
    have hfun : ((fun p : Nat × Node => if p.1 == v then (p.1, x) else p) ∘
        fun p : Nat × Node => if p.1 == v then (p.1, l) else p) =
        fun p : Nat × Node => if p.1 == v then (p.1, x) else p := by
      funext p
      by_cases hp : p.1 = v <;> simp [hp]
    rw [hfun]
  · have hc' : containsKey m v = false := by
      cases h : containsKey m v
      · rfl
      · exact absurd h hc
    simp only [hc', if_false, Bool.false_eq_true]
    rw [overwriteVal_append, overwriteVal_of_not_contains x hc']
    have hsingle : overwriteVal [(v, l)] v x = [(v, x)] := by
      unfold overwriteVal
      simp
    rw [hsingle]

theorem seedPairs_overwriteVal :
    ∀ (restIdx : List Nat) (restNode : List Node) (m : List (Nat × Node))
      (v : Nat) (x : Node),
    (∃ k, restIdx.get? k = some v ∧ k < restNode.length) →
    seedPairs (overwriteVal m v x) restIdx restNode = seedPairs m restIdx restNode := by
  intro restIdx
  induction restIdx with
  | nil =>
    rintro restNode m v x ⟨k, hk, _⟩
    simp at hk
  | cons i it ih =>
    rintro restNode m v x ⟨k, hk, hkl⟩
    cases restNode with
    | nil => simp at hkl
    | cons l lt =>
      by_cases hiv : i = v
      · subst hiv
        show seedPairs (insertAssoc (overwriteVal m i x) i l) it lt =
          seedPairs (insertAssoc m i l) it lt
        rw [insertAssoc_overwriteVal_same]
      · show seedPairs (insertAssoc (overwriteVal m v x) i l) it lt =
          seedPairs (insertAssoc m i l) it lt
        rw [insertAssoc_overwriteVal_other m hiv l x]
        apply ih
        cases k with
        | zero =>
          have : i = v := by simpa using hk
          exact absurd this hiv
        | succ q => exact ⟨q, by simpa using hk, by simpa using hkl⟩

/-- Writing a different node at an earlier occurrence of a duplicated
index leaves the seeded mapping unchanged: the later occurrence
overwrites it. -/
theorem seedPairs_set :
    ∀ (j : Nat) (restIdx : List Nat) (restNode : List Node) (k v : Nat) (x : Node),
    restIdx.get? j = some v → restIdx.get? k = some v → j < k → k < restNode.length →
    ∀ m : List (Nat × Node),
    seedPairs m restIdx (restNode.set j x) = seedPairs m restIdx restNode := by
  intro j
  induction j with
  | zero =>
    intro restIdx restNode k v x hj hk hjk hkl m
    cases restIdx with
    | nil => simp at hj
    | cons i it =>
      have hi : i = v := by simpa using hj
      subst hi
      cases restNode with
      | nil => simp at hkl
      | cons l lt =>
        show seedPairs (insertAssoc m i x) it lt = seedPairs (insertAssoc m i l) it lt
        rw [insertAssoc_eq_overwriteVal_insert m i l x]
        apply seedPairs_overwriteVal
        cases k with
        | zero => omega
        | succ q => exact ⟨q, by simpa using hk, by simpa using hkl⟩
  | succ j' ih =>
    intro restIdx restNode k v x hj hk hjk hkl m
    cases restIdx with
    | nil => simp at hj
    | cons i it =>
      cases restNode with
      | nil => simp at hkl
      | cons l lt =>
        show seedPairs (insertAssoc m i l) it (lt.set j' x) =
          seedPairs (insertAssoc m i l) it lt
        cases k with
        | zero => omega
        | succ q =>
          exact ih it lt q v x (by simpa using hj) (by simpa using hk)
            (by omega) (by simpa using hkl) _

end SeedLemmas

/-! ### Auxiliary facts for the reconstruction-scan analysis -/

theorem nodup_length_le (l : List Nat) (M : Nat) (h : l.Nodup)
    (hb : ∀ x ∈ l, x ≤ M) : l.length ≤ M + 1 := by
  have hsub : l.toFinset ⊆ Finset.range (M + 1) := by
    intro x hx
    exact Finset.mem_range.mpr (by have := hb x (List.mem_toFinset.mp hx); omega)
  have hcard := Finset.card_le_card hsub
  rw [List.toFinset_card_of_nodup h, Finset.card_range] at hcard
  exact hcard

theorem le_foldr_max (l : List Nat) : ∀ x ∈ l, x ≤ l.foldr max 0 := by
  induction l with
  | nil => simp
  | cons a t ih =>
    intro x hx
    rcases List.mem_cons.mp hx with rfl | hx
    · simp [List.foldr_cons]
    · have := ih x hx
      simp only [List.foldr_cons]
      omega

theorem getD_append_lt (l l' : List Nat) : ∀ q, q < l.length →
    (l ++ l').getD q 0 = l.getD q 0 := by
  induction l with
  | nil => intro q hq; simp at hq
  | cons a t ih =>
    intro q hq
    cases q with
    | zero => rfl
    | succ q' => exact ih q' (by simpa using hq)

theorem getD_append_self (l : List Nat) (a : Nat) :
    (l ++ [a]).getD l.length 0 = a := by
  induction l with
  | nil => rfl
  | cons b t ih => exact ih

theorem getD_mem (l : List Nat) : ∀ q, q < l.length → l.getD q 0 ∈ l := by
  induction l with
  | nil => intro q hq; simp at hq
  | cons a t ih =>
    intro q hq
    cases q with
    | zero => simp
    | succ q' => exact List.mem_cons_of_mem a (ih q' (by simpa using hq))

theorem mem_getD (l : List Nat) (x : Nat) (h : x ∈ l) :
    ∃ q, q < l.length ∧ l.getD q 0 = x := by
  induction l with
  | nil => simp at h
  | cons a t ih =>
    rcases List.mem_cons.mp h with rfl | h
    · exact ⟨0, by simp, rfl⟩
    · obtain ⟨q, hq, heq⟩ := ih h
      exact ⟨q + 1, by simpa using hq, heq⟩

section MapLemmas

variable {Node : Type} [DecidableEq Node] [Inhabited Node]

theorem containsKey_iff_mem_fst (m : List (Nat × Node)) (k : Nat) :
    containsKey m k = true ↔ k ∈ m.map Prod.fst := by
  simp only [containsKey, List.any_eq_true, beq_iff_eq, List.mem_map]

theorem lookupAssoc_some_of_contains {m : List (Nat × Node)} {k : Nat}
    (h : containsKey m k = true) : ∃ v, lookupAssoc m k = some v := by
  induction m with
  | nil => simp [containsKey] at h
  | cons p t ih =>
    by_cases hp : (p.1 == k) = true
    · refine ⟨p.2, ?_⟩
      have hfind : List.find? (fun q : Nat × Node => q.1 == k) (p :: t) = some p :=
        List.find?_cons_of_pos t hp
      unfold lookupAssoc
      rw [hfind]
      rfl
    · have hp' : (p.1 == k) = false := by
        cases hb : (p.1 == k)
        · rfl
        · exact absurd hb hp
      have h' : containsKey t k = true := by
        simpa [containsKey, hp'] using h
      obtain ⟨v, hv⟩ := ih h'
      refine ⟨v, ?_⟩
      have hfind : List.find? (fun q : Nat × Node => q.1 == k) (p :: t) =
          List.find? (fun q : Nat × Node => q.1 == k) t :=
        List.find?_cons_of_neg t hp
      have heq : lookupAssoc (p :: t) k = lookupAssoc t k := by
        unfold lookupAssoc
        rw [hfind]
      rw [heq, hv]

/-- The branch of `insertAssoc` taken on a present key is exactly
`overwriteVal`. -/
theorem insertAssoc_eq_overwrite (m : List (Nat × Node)) (k : Nat) (v : Node) :
    insertAssoc m k v =
      if containsKey m k then overwriteVal m k v else m ++ [(k, v)] := rfl

theorem overwriteVal_map_fst (m : List (Nat × Node)) (v : Nat) (x : Node) :
    (overwriteVal m v x).map Prod.fst = m.map Prod.fst := by
  unfold overwriteVal
  rw [List.map_map]
  have hfun : (Prod.fst ∘ fun p : Nat × Node => if p.1 == v then (p.1, x) else p) =
      Prod.fst := by
    funext p
    by_cases hp : p.1 = v <;> simp [hp]
  rw [hfun]

theorem containsKey_insertAssoc (m : List (Nat × Node)) (k : Nat) (v : Node) (x : Nat) :
    containsKey (insertAssoc m k v) x = true ↔ x = k ∨ containsKey m x = true := by
  rw [insertAssoc_eq_overwrite]
  by_cases hc : containsKey m k = true
  · rw [if_pos hc, containsKey_overwriteVal]
    constructor
    · exact .inr
    · rintro (rfl | h)
      · exact hc
      · exact h
  · have hc' : containsKey m k = false := by
      cases hb : containsKey m k
      · rfl
      · exact absurd hb hc
    rw [if_neg (by simp [hc'])]
    rw [containsKey_iff_mem_fst]
    rw [List.map_append]
    simp only [List.mem_append, List.map_cons, List.map_nil, List.mem_singleton]
    rw [← containsKey_iff_mem_fst]
    constructor
    · rintro (h | rfl)
      · exact .inr h
      · exact .inl rfl
    · rintro (rfl | h)
      · exact .inr rfl
      · exact .inl h

theorem map_fst_insertAssoc (m : List (Nat × Node)) (k : Nat) (v : Node) :
    (insertAssoc m k v).map Prod.fst =
      if containsKey m k then m.map Prod.fst else m.map Prod.fst ++ [k] := by
  rw [insertAssoc_eq_overwrite]
  by_cases hc : containsKey m k = true
  · rw [if_pos hc, if_pos hc, overwriteVal_map_fst]
  · have hc' : containsKey m k = false := by
      cases hb : containsKey m k
      · rfl
      · exact absurd hb hc
    rw [if_neg (by simp [hc']), if_neg (by simp [hc'])]
    simp

theorem map_fst_nodup_insertAssoc {m : List (Nat × Node)}
    (h : (m.map Prod.fst).Nodup) (k : Nat) (v : Node) :
    ((insertAssoc m k v).map Prod.fst).Nodup := by
  rw [map_fst_insertAssoc]
  by_cases hc : containsKey m k = true
  · rw [if_pos hc]
    exact h
  · have hc' : containsKey m k = false := by
      cases hb : containsKey m k
      · rfl
      · exact absurd hb hc
    rw [if_neg (by simp [hc'])]
    have hk : k ∉ m.map Prod.fst := by
      intro hmem
      rw [← containsKey_iff_mem_fst] at hmem
      rw [hmem] at hc'
      cases hc'
    simp [List.nodup_append, h, hk]

theorem length_insertAssoc (m : List (Nat × Node)) (k : Nat) (v : Node) :
    (insertAssoc m k v).length =
      if containsKey m k then m.length else m.length + 1 := by
  rw [insertAssoc_eq_overwrite]
  by_cases hc : containsKey m k = true
  · rw [if_pos hc, if_pos hc]
    unfold overwriteVal
    simp
  · have hc' : containsKey m k = false := by
      cases hb : containsKey m k
      · rfl
      · exact absurd hb hc
    rw [if_neg (by simp [hc']), if_neg (by simp [hc'])]
    simp

theorem containsKey_seedPairs :
    ∀ (restIdx : List Nat) (restNode : List Node) (m : List (Nat × Node)) (x : Nat),
    restIdx.length ≤ restNode.length →
    (containsKey (seedPairs m restIdx restNode) x = true ↔
      x ∈ restIdx ∨ containsKey m x = true) := by
  intro restIdx
  induction restIdx with
  | nil =>
    intro restNode m x _
    simp [show seedPairs m [] restNode = m from rfl]
  | cons i it ih =>
    intro restNode m x hlen
    cases restNode with
    | nil => simp at hlen
    | cons l lt =>
      show containsKey (seedPairs (insertAssoc m i l) it lt) x = true ↔ _
      rw [ih lt _ x (by simpa using hlen), containsKey_insertAssoc]
      simp only [List.mem_cons]
      constructor
      · rintro (h | rfl | h)
        · exact .inl (.inr h)
        · exact .inl (.inl rfl)
        · exact .inr h
      · rintro ((rfl | h) | h)
        · exact .inr (.inl rfl)
        · exact .inl h
        · exact .inr (.inr h)

theorem seedPairs_fst_nodup :
    ∀ (restIdx : List Nat) (restNode : List Node) (m : List (Nat × Node)),
    (m.map Prod.fst).Nodup → ((seedPairs m restIdx restNode).map Prod.fst).Nodup := by
  intro restIdx
  induction restIdx with
  | nil => intro restNode m h; exact h
  | cons i it ih =>
    intro restNode m h
    cases restNode with
    | nil => exact h
    | cons l lt => exact ih lt _ (map_fst_nodup_insertAssoc h i l)

end MapLemmas

theorem bool_eq_false {b : Bool} (h : ¬ b = true) : b = false := by
  cases b
  · rfl
  · exact absurd rfl h

/-! ### The reconstruction scan reaches every derivable parent -/

section ScanMaster

variable {Node : Type} [DecidableEq Node] [Inhabited Node]
variable (hash : Node → Node → Node)

/-- Invariant of the scan: whenever the mapping holds a key and its
sibling but not their parent, at least one of the two still lies at or
after the cursor in the work-list. -/
def Pending (objects : List (Nat × Node)) (keys : List Nat) (pos : Nat) : Prop :=
  ∀ k, containsKey objects k = true → containsKey objects (sibling k) = true →
    containsKey objects (parent k) = false →
    ∃ q, pos ≤ q ∧ q < keys.length ∧
      (keys.getD q 0 = k ∨ keys.getD q 0 = sibling k)

theorem scanLoop_succ (fuel : Nat) (objects : List (Nat × Node)) (keys : List Nat)
    (pos : Nat) :
    scanLoop hash (fuel + 1) objects keys pos =
      if pos < keys.length then
        (if containsKey objects (keys.getD pos 0) &&
            containsKey objects (sibling (keys.getD pos 0)) &&
            !containsKey objects (parent (keys.getD pos 0)) then
          match lookupAssoc objects (sibling ((keys.getD pos 0) ||| 1)),
                lookupAssoc objects ((keys.getD pos 0) ||| 1) with
          | some left_input, some right_input =>
            scanLoop hash fuel
              (insertAssoc objects (parent (keys.getD pos 0))
                (hash left_input right_input))
              (keys ++ [parent (keys.getD pos 0)]) (pos + 1)
          | _, _ => ScanOut.aborted
        else scanLoop hash fuel objects keys (pos + 1))
      else .done objects := rfl

/-- Master lemma for the scan: under the work-list invariants the scan
completes within the fuel bound, the mapping only grows, and the final
mapping is closed under combining a present key and present sibling into
their parent. -/
theorem scan_master (M : Nat) :
    ∀ (fuel : Nat) (objects : List (Nat × Node)) (keys : List Nat) (pos : Nat),
    (∀ k ∈ keys, k ≤ M) →
    keys.Nodup →
    (objects.map Prod.fst).Nodup →
    (∀ k, containsKey objects k = true ↔ k ∈ keys) →
    keys.length - pos + (M + 2 - objects.length) ≤ fuel →
    Pending objects keys pos →
    ∃ F, scanLoop hash fuel objects keys pos = .done F ∧
      (∀ k, containsKey objects k = true → containsKey F k = true) ∧
      (∀ u, containsKey F u = true → containsKey F (sibling u) = true →
        containsKey F (parent u) = true) := by
  intro fuel
  induction fuel with
  | zero =>
    intro objects keys pos hM hnd hond hmem hfuel hpend
    exfalso
    have h2 : ∀ y ∈ objects.map Prod.fst, y ≤ M := by
      intro y hy
      exact hM y ((hmem y).mp ((containsKey_iff_mem_fst objects y).mpr hy))
    have hle := nodup_length_le (objects.map Prod.fst) M hond h2
    simp only [List.length_map] at hle
    omega
  | succ fuel ih =>
    intro objects keys pos hM hnd hond hmem hfuel hpend
    have h2 : ∀ y ∈ objects.map Prod.fst, y ≤ M := by
      intro y hy
      exact hM y ((hmem y).mp ((containsKey_iff_mem_fst objects y).mpr hy))
    have hb := nodup_length_le (objects.map Prod.fst) M hond h2
    simp only [List.length_map] at hb
    rw [scanLoop_succ]
    by_cases hpos : pos < keys.length
    case neg =>
      rw [if_neg hpos]
      refine ⟨objects, rfl, fun k h => h, ?_⟩
      intro u hu hsu
      by_contra hpar
      obtain ⟨q, hq1, hq2, _⟩ := hpend u hu hsu (bool_eq_false hpar)
      omega
    case pos =>
      rw [if_pos hpos]
      have hkmem : keys.getD pos 0 ∈ keys := getD_mem keys pos hpos
      have hkp : containsKey objects (keys.getD pos 0) = true := (hmem _).mpr hkmem
      by_cases hsp : containsKey objects (sibling (keys.getD pos 0)) = true
      case pos =>
        by_cases hpp : containsKey objects (parent (keys.getD pos 0)) = true
        case pos =>
          -- Skip step: the parent is already present.
          rw [hkp, hsp, hpp]
          simp only [Bool.not_true, Bool.and_false, Bool.false_eq_true, if_false]
          apply ih objects keys (pos + 1) hM hnd hond hmem (by omega)
          intro a ha hsa hpa
          obtain ⟨q, hq1, hq2, hq3⟩ := hpend a ha hsa hpa
          by_cases hq : q = pos
          · exfalso
            subst hq
            rcases hq3 with hqa | hqs
            · -- the processed key is `a`; but then its parent is present
              rw [hqa] at hpp
              rw [hpp] at hpa
              cases hpa
            · -- the processed key is `sibling a`; same parent
              rw [hqs, parent_sibling] at hpp
              rw [hpp] at hpa
              cases hpa
          · exact ⟨q, by omega, hq2, hq3⟩
        case neg =>
          -- Compute step: key and sibling present, parent missing.
          have hpm : containsKey objects (parent (keys.getD pos 0)) = false :=
            bool_eq_false hpp
          rw [hkp, hsp, hpm]
          simp only [Bool.not_false, Bool.and_true, Bool.true_and, if_true]
          have hcontL : containsKey objects (sibling ((keys.getD pos 0) ||| 1)) = true := by
            rcases or_one_sibling_cases (keys.getD pos 0) with ⟨h1, _⟩ | ⟨h1, _⟩ <;>
              rw [h1] <;> assumption
          have hcontR : containsKey objects ((keys.getD pos 0) ||| 1) = true := by
            rcases or_one_sibling_cases (keys.getD pos 0) with ⟨_, h2'⟩ | ⟨_, h2'⟩ <;>
              rw [h2'] <;> assumption
          obtain ⟨vL, hvL⟩ := lookupAssoc_some_of_contains hcontL
          obtain ⟨vR, hvR⟩ := lookupAssoc_some_of_contains hcontR
          rw [hvL, hvR]
          -- invariants for the recursive call
          have hparnotin : parent (keys.getD pos 0) ∉ keys := by
            intro hin
            rw [← hmem] at hin
            rw [hin] at hpm
            cases hpm
          have hM' : ∀ k ∈ keys ++ [parent (keys.getD pos 0)], k ≤ M := by
            intro k hk
            rcases List.mem_append.mp hk with hk | hk
            · exact hM k hk
            · have hk' : k = parent (keys.getD pos 0) := List.mem_singleton.mp hk
              subst hk'
              have := hM _ hkmem
              unfold parent
              omega
          have hnd' : (keys ++ [parent (keys.getD pos 0)]).Nodup := by
            rw [List.nodup_append]
            refine ⟨hnd, by simp, ?_⟩
            intro a ha hain
            have ha' : a = parent (keys.getD pos 0) := List.mem_singleton.mp hain
            rw [ha'] at ha
            exact hparnotin ha
          have hond' := map_fst_nodup_insertAssoc hond
            (parent (keys.getD pos 0)) (hash vL vR)
          have hmem' : ∀ k,
              containsKey (insertAssoc objects (parent (keys.getD pos 0)) (hash vL vR)) k
                = true ↔ k ∈ keys ++ [parent (keys.getD pos 0)] := by
            intro k
            rw [containsKey_insertAssoc]
            simp only [List.mem_append, List.mem_singleton]
            rw [hmem]
            tauto
          have hlen' : (insertAssoc objects (parent (keys.getD pos 0)) (hash vL vR)).length
              = objects.length + 1 := by
            rw [length_insertAssoc]
            rw [if_neg (by rw [hpm]; exact Bool.false_ne_true)]
          have hfuel' : (keys ++ [parent (keys.getD pos 0)]).length - (pos + 1) +
              (M + 2 - (insertAssoc objects (parent (keys.getD pos 0))
                (hash vL vR)).length) ≤ fuel := by
            rw [hlen']
            simp only [List.length_append, List.length_cons, List.length_nil]
            omega
          have hpend' : Pending
              (insertAssoc objects (parent (keys.getD pos 0)) (hash vL vR))
              (keys ++ [parent (keys.getD pos 0)]) (pos + 1) := by
            intro a ha hsa hpa
            rw [containsKey_insertAssoc] at ha hsa
            have hpa' : ¬(parent a = parent (keys.getD pos 0) ∨
                containsKey objects (parent a) = true) := by
              intro hcon
              have := (containsKey_insertAssoc objects (parent (keys.getD pos 0))
                (hash vL vR) (parent a)).mpr hcon
              rw [this] at hpa
              cases hpa
            push_neg at hpa'
            obtain ⟨hpk1, hpk2⟩ := hpa'
            rcases ha with rfl | ha
            · -- `a` is the freshly inserted parent
              refine ⟨keys.length, by omega, by simp, .inl ?_⟩
              exact getD_append_self keys _
            · rcases hsa with hs1 | hs2
              · -- the sibling of `a` is the freshly inserted parent
                refine ⟨keys.length, by omega, by simp, .inr ?_⟩
                rw [getD_append_self keys _, hs1]
              · obtain ⟨q, hq1, hq2, hq3⟩ := hpend a ha hs2 (bool_eq_false hpk2)
                by_cases hq : q = pos
                · exfalso
                  subst hq
                  rcases hq3 with hqa | hqs
                  · exact hpk1 (by rw [← hqa])
                  · apply hpk1
                    rw [← parent_sibling a, ← hqs]
                · refine ⟨q, by omega, by simp only [List.length_append,
                    List.length_cons, List.length_nil]; omega, ?_⟩
                  rw [getD_append_lt keys _ q hq2]
                  exact hq3
          obtain ⟨F, hscan, hmono, hclosed⟩ := ih _ _ _ hM' hnd' hond' hmem' hfuel' hpend'
          refine ⟨F, hscan, ?_, hclosed⟩
          intro k hk
          apply hmono
          rw [containsKey_insertAssoc]
          exact .inr hk
      case neg =>
        -- Skip step: the sibling is absent.
        have hsp' : containsKey objects (sibling (keys.getD pos 0)) = false :=
          bool_eq_false hsp
        rw [hkp, hsp']
        simp only [Bool.and_false, Bool.false_and, Bool.and_true, Bool.true_and,
          Bool.false_eq_true, if_false]
        apply ih objects keys (pos + 1) hM hnd hond hmem (by omega)
        intro a ha hsa hpa
        obtain ⟨q, hq1, hq2, hq3⟩ := hpend a ha hsa hpa
        by_cases hq : q = pos
        · exfalso
          subst hq
          rcases hq3 with hqa | hqs
          · -- the processed key is `a`, whose sibling is present
            rw [hqa] at hsp'
            rw [hsp'] at hsa
            cases hsa
          · -- the processed key is `sibling a`, and `a` itself is present
            rw [hqs, sibling_sibling] at hsp'
            rw [hsp'] at ha
            cases ha
        · exact ⟨q, by omega, hq2, hq3⟩

end ScanMaster

/-! ### From the helper-set construction to the root -/

/-- The closure of a set of known tree positions under combining a node
and its sibling into their parent. -/
inductive Reach (K : Nat → Prop) : Nat → Prop where
  | base {v : Nat} : K v → Reach K v
  | combine {u : Nat} : Reach K u → Reach K (sibling u) → Reach K (parent u)

theorem div_pow_log2_self {t : Nat} (ht : 1 ≤ t) : t / 2 ^ Nat.log2 t = 1 := by
  have h1 : 2 ^ Nat.log2 t ≤ t := Nat.log2_self_le (by omega)
  have h2 : t < 2 ^ (Nat.log2 t + 1) := Nat.lt_log2_self
  have hpow : (0:Nat) < 2 ^ Nat.log2 t := Nat.pos_pow_of_pos _ (by omega)
  have hge : 1 ≤ t / 2 ^ Nat.log2 t := (Nat.one_le_div_iff hpow).mpr h1
  have hlt : t / 2 ^ Nat.log2 t < 2 := by
    rw [Nat.div_lt_iff_lt_mul hpow]
    rw [pow_succ] at h2
    omega
  omega

/-- Every ancestor of every target, the root included, is derivable from
the targets together with the helper set. -/
theorem reach_root (indices : List Nat) (hne : indices ≠ [])
    (hpos : ∀ i ∈ indices, 1 ≤ i) :
    Reach (fun v => v ∈ indices ∨ v ∈ get_helper_indices indices) 1 := by
  obtain ⟨t, ht⟩ : ∃ t, t ∈ indices := by
    cases indices with
    | nil => exact absurd rfl hne
    | cons a l => exact ⟨a, by simp⟩
  have hMi : ∀ i ∈ indices, i ≤ indices.foldr max 0 := le_foldr_max indices
  have main : ∀ n : Nat, ∀ v : Nat,
      (∃ t' ∈ indices, ∃ m, m ≤ Nat.log2 t' ∧ v = t' / 2 ^ m) →
      indices.foldr max 0 + 1 - v ≤ n →
      Reach (fun v => v ∈ indices ∨ v ∈ get_helper_indices indices) v := by
    intro n
    induction n with
    | zero =>
      rintro v ⟨t', ht', m, hm, rfl⟩ hn
      exfalso
      have ht'1 : 1 ≤ t' := hpos t' ht'
      have hv1 : 1 ≤ t' / 2 ^ m := by
        apply (Nat.one_le_div_iff (Nat.pos_pow_of_pos _ (by omega))).mpr
        calc 2 ^ m ≤ 2 ^ Nat.log2 t' := Nat.pow_le_pow_right (by omega) hm
          _ ≤ t' := Nat.log2_self_le (by omega)
      have hvM : t' / 2 ^ m ≤ indices.foldr max 0 :=
        le_trans (Nat.div_le_self _ _) (hMi t' ht')
      omega
    | succ n ihn =>
      rintro v ⟨t', ht', m, hm, rfl⟩ hn
      have ht'1 : 1 ≤ t' := hpos t' ht'
      cases m with
      | zero => exact .base (.inl (by simpa using ht'))
      | succ m' =>
        have hm' : m' ≤ Nat.log2 t' := by omega
        have hu_div : (t' / 2 ^ m') / 2 = t' / 2 ^ (m' + 1) := by
          rw [Nat.div_div_eq_div_mul, pow_succ]
        have hu1 : 1 ≤ t' / 2 ^ m' := by
          apply (Nat.one_le_div_iff (Nat.pos_pow_of_pos _ (by omega))).mpr
          calc 2 ^ m' ≤ 2 ^ Nat.log2 t' := Nat.pow_le_pow_right (by omega) hm'
            _ ≤ t' := Nat.log2_self_le (by omega)
        have hv1 : 1 ≤ t' / 2 ^ (m' + 1) := by
          apply (Nat.one_le_div_iff (Nat.pos_pow_of_pos _ (by omega))).mpr
          calc 2 ^ (m' + 1) ≤ 2 ^ Nat.log2 t' := Nat.pow_le_pow_right (by omega) hm
            _ ≤ t' := Nat.log2_self_le (by omega)
        have huM : t' / 2 ^ m' ≤ indices.foldr max 0 :=
          le_trans (Nat.div_le_self _ _) (hMi t' ht')
        have hu2v : t' / 2 ^ m' = 2 * (t' / 2 ^ (m' + 1)) ∨
            t' / 2 ^ m' = 2 * (t' / 2 ^ (m' + 1)) + 1 := by
          have hdm := Nat.div_add_mod (t' / 2 ^ m') 2
          rcases Nat.mod_two_eq_zero_or_one (t' / 2 ^ m') with h | h <;> omega
        have hugt : t' / 2 ^ (m' + 1) < t' / 2 ^ m' := by omega
        have hReach_u : Reach _ (t' / 2 ^ m') :=
          ihn (t' / 2 ^ m') ⟨t', ht', m', hm', rfl⟩ (by omega)
        have hsib_val : sibling (t' / 2 ^ m') = 2 * (t' / 2 ^ (m' + 1)) ∨
            sibling (t' / 2 ^ m') = 2 * (t' / 2 ^ (m' + 1)) + 1 := by
          rw [sibling_eq]
          rcases hu2v with h | h <;> rw [h]
          · right
            simp [Nat.mul_mod_right]
          · left
            have : (2 * (t' / 2 ^ (m' + 1)) + 1) % 2 = 1 := by omega
            simp [this]
        have hbmem : sibling (t' / 2 ^ m') ∈ get_branch_indices t' :=
          (mem_get_branch_indices_iff ht'1 _).mpr ⟨m', by omega, rfl⟩
        have hsibu : Reach
            (fun v => v ∈ indices ∨ v ∈ get_helper_indices indices)
            (sibling (t' / 2 ^ m')) := by
          by_cases hpath : ∃ t'' ∈ indices, sibling (t' / 2 ^ m') ∈ get_path_indices t''
          · obtain ⟨t'', ht'', hmemp⟩ := hpath
            have ht''1 : 1 ≤ t'' := hpos t'' ht''
            obtain ⟨m'', hm'', hs_eq⟩ := (mem_get_path_indices_iff ht''1 _).mp hmemp
            apply ihn (sibling (t' / 2 ^ m')) ⟨t'', ht'', m'', by omega, hs_eq⟩
            rcases hsib_val with h | h <;> omega
          · apply Reach.base
            right
            rw [mem_get_helper_indices_iff]
            exact ⟨⟨t', ht', hbmem⟩, hpath⟩
        have hcomb := Reach.combine hReach_u hsibu
        have hpar_eq : parent (t' / 2 ^ m') = t' / 2 ^ (m' + 1) := hu_div
        rw [hpar_eq] at hcomb
        exact hcomb
  exact main (indices.foldr max 0 + 1) 1
    ⟨t, ht, Nat.log2 t, le_rfl, (div_pow_log2_self (hpos t ht)).symm⟩ (by omega)

/-- C3: `get_helper_indices` returns exactly the union of the targets'
branch indices minus the union of the targets' path indices, sorted in
descending numeric order. -/
theorem claim_C3 (indices : List Nat) :
    (∀ x, x ∈ get_helper_indices indices ↔
      (∃ t ∈ indices, x ∈ get_branch_indices t) ∧
      ¬ ∃ t ∈ indices, x ∈ get_path_indices t) ∧
    (get_helper_indices indices).Sorted (· > ·) :=
  ⟨fun x => mem_get_helper_indices_iff indices x, get_helper_indices_sorted indices⟩

/-- Witness for C3 at the concrete target list with the single index 2. -/
theorem claim_C3_witness :
    (3 ∈ get_helper_indices [2] ↔
      (∃ t ∈ [2], 3 ∈ get_branch_indices t) ∧
      ¬ ∃ t ∈ [2], 3 ∈ get_path_indices t) ∧
    (get_helper_indices [2]).Sorted (· > ·) :=
  ⟨(claim_C3 [2]).1 3, (claim_C3 [2]).2⟩

/-- C1 is refuted: on the empty input (empty leaves, proof and indices),
which passes both validations, the reconstruction mapping never receives
index 1 and the final `expect` aborts instead of returning Ok or a
declared error. -/
theorem claim_C1 : verify_merkle_multiproof natHash [] [] [] 0 = .fault := rfl

/-- C7: `calculate_multi_merkle_root` returns InvalidProof whenever the
number of leaves differs from the number of indices, or the proof length
differs from the helper-set size computed from the indices. -/
theorem claim_C7 {Node : Type} [DecidableEq Node] [Inhabited Node]
    (hash : Node → Node → Node) (leaves proof : List Node) (indices : List Nat) :
    (leaves.length ≠ indices.length →
      calculate_multi_merkle_root hash leaves proof indices = .err .InvalidProof) ∧
    (proof.length ≠ (get_helper_indices indices).length →
      calculate_multi_merkle_root hash leaves proof indices = .err .InvalidProof) := by
  constructor
  · intro h
    unfold calculate_multi_merkle_root
    rw [if_pos h]
  · intro h
    unfold calculate_multi_merkle_root
    by_cases hlen : leaves.length ≠ indices.length
    · rw [if_pos hlen]
    · rw [if_neg hlen]
      dsimp only
      rw [if_pos h]

/-- Witness for C7: a leaf-count mismatch and a proof-length mismatch. -/
theorem claim_C7_witness :
    calculate_multi_merkle_root natHash [] [] [2] = .err .InvalidProof ∧
    calculate_multi_merkle_root natHash [5] [] [2] = .err .InvalidProof :=
  ⟨(claim_C7 natHash [] [] [2]).1 (by decide),
   (claim_C7 natHash [5] [] [2]).2 (by decide)⟩

/-- The concrete leaf of the reference scenario: a 32-byte value whose
first byte is 1 and whose remaining bytes are 0. -/
def leafC8 : List Nat := 1 :: List.replicate 31 0

/-- The concrete proof node of the reference scenario: a 32-byte value
whose first byte is 2 and whose remaining bytes are 0. -/
def proofNodeC8 : List Nat := 2 :: List.replicate 31 0

/-- C8: on the reference scenario with leaf index 2, verifying against
the root obtained by hashing the leaf with the proof node succeeds, and
verifying against any other root fails with InvalidProof.  The statement
holds for every hash function, in particular for SHA-256. -/
theorem claim_C8 (hash : List Nat → List Nat → List Nat) (root : List Nat) :
    verify_merkle_multiproof hash [leafC8] [proofNodeC8] [2]
      (hash leafC8 proofNodeC8) = .ok () ∧
    (root ≠ hash leafC8 proofNodeC8 →
      verify_merkle_multiproof hash [leafC8] [proofNodeC8] [2] root =
        .err .InvalidProof) := by
  have hcalc : calculate_multi_merkle_root hash [leafC8] [proofNodeC8] [2] =
      .ok (hash leafC8 proofNodeC8) := rfl
  constructor
  · unfold verify_merkle_multiproof
    rw [hcalc]
    simp
  · intro hne
    unfold verify_merkle_multiproof
    rw [hcalc]
    exact if_neg (fun h => hne h.symm)

/-- Witness for C8 with a concrete hash function and a wrong root. -/
theorem claim_C8_witness :
    verify_merkle_multiproof (fun a b => a ++ b) [leafC8] [proofNodeC8] [2] [] =
      .err .InvalidProof :=
  (claim_C8 (fun a b => a ++ b) []).2 (by decide)

/-- C10: when the same generalized index occurs at positions `j < k` of
`indices`, the result of `calculate_multi_merkle_root` does not depend on
`leaves[j]`: the later occurrence overwrites it in the node mapping, so
two calls differing only in `leaves[j]` return identical results. -/
theorem claim_C10 {Node : Type} [DecidableEq Node] [Inhabited Node]
    (hash : Node → Node → Node) (leaves proof : List Node) (indices : List Nat)
    (j k v : Nat) (x : Node)
    (hj : indices.get? j = some v) (hk : indices.get? k = some v) (hjk : j < k) :
    calculate_multi_merkle_root hash (leaves.set j x) proof indices =
      calculate_multi_merkle_root hash leaves proof indices := by
  by_cases hlen : leaves.length = indices.length
  · obtain ⟨hklen, -⟩ := List.get?_eq_some.mp hk
    have hseed : seedPairs ([] : List (Nat × Node)) indices (leaves.set j x) =
        seedPairs [] indices leaves :=
      seedPairs_set j indices leaves k v x hj hk hjk (by omega) []
    unfold calculate_multi_merkle_root
    rw [List.length_set, hseed]
  · unfold calculate_multi_merkle_root
    rw [List.length_set]
    simp only [if_pos (show leaves.length ≠ indices.length from hlen)]

/-- Witness for C10: a duplicated index 2 whose first leaf is replaced. -/
theorem claim_C10_witness :
    calculate_multi_merkle_root natHash ([5, 7].set 0 100) [9] [2, 2] =
      calculate_multi_merkle_root natHash [5, 7] [9] [2, 2] :=
  claim_C10 natHash [5, 7] [9] [2, 2] 0 1 2 100 rfl rfl (by decide)

/-- C4: when the indices are non-empty and at least 1, the leaf count
matches the index count, and the proof length matches the helper-set
size, the reconstruction scan of `calculate_multi_merkle_root` terminates
with index 1 in its mapping and the function returns Ok with that node:
the lookup of index 1 cannot fail. -/
theorem claim_C4 {Node : Type} [DecidableEq Node] [Inhabited Node]
    (hash : Node → Node → Node) (leaves proof : List Node) (indices : List Nat)
    (hne : indices ≠ []) (hpos : ∀ i ∈ indices, 1 ≤ i)
    (hlen : leaves.length = indices.length)
    (hplen : proof.length = (get_helper_indices indices).length) :
    ∃ root, calculate_multi_merkle_root hash leaves proof indices = .ok root := by
  have hK : ∀ x, containsKey (seedPairs (seedPairs ([] : List (Nat × Node)) indices leaves)
      (get_helper_indices indices) proof) x = true ↔
      x ∈ get_helper_indices indices ∨ x ∈ indices := by
    intro x
    rw [containsKey_seedPairs _ _ _ _ (by omega),
      containsKey_seedPairs _ _ _ _ (by omega)]
    simp [containsKey]
  set objects₀ := seedPairs (seedPairs ([] : List (Nat × Node)) indices leaves)
      (get_helper_indices indices) proof with hobj
  set keys := sortDesc (objects₀.map Prod.fst) with hkeysdef
  have hond : (objects₀.map Prod.fst).Nodup := by
    rw [hobj]
    exact seedPairs_fst_nodup _ _ _ (seedPairs_fst_nodup _ _ _ (by simp))
  have hperm : keys.Perm (objects₀.map Prod.fst) := by
    rw [hkeysdef]
    exact List.perm_insertionSort descRel _
  have hnd : keys.Nodup := hperm.symm.nodup hond
  have hmem : ∀ k, containsKey objects₀ k = true ↔ k ∈ keys := by
    intro k
    rw [containsKey_iff_mem_fst]
    exact ⟨fun h => hperm.mem_iff.mpr h, fun h => hperm.mem_iff.mp h⟩
  have hM : ∀ k ∈ keys, k ≤ keys.foldr max 0 := le_foldr_max keys
  have hpend : Pending objects₀ keys 0 := by
    intro a ha _ _
    obtain ⟨q, hq, heq⟩ := mem_getD keys a ((hmem a).mp ha)
    exact ⟨q, by omega, hq, .inl heq⟩
  obtain ⟨F, hscan, hmono, hclosed⟩ := scan_master hash (keys.foldr max 0)
    (keys.length + (keys.foldr max 0 + 2)) objects₀ keys 0 hM hnd hond hmem
    (by omega) hpend
  have hreach : ∀ v, Reach (fun v => v ∈ indices ∨ v ∈ get_helper_indices indices) v →
      containsKey F v = true := by
    intro v hv
    induction hv with
    | base hKv =>
      apply hmono
      rw [hK]
      tauto
    | combine hu hsu ihu ihsu => exact hclosed _ ihu ihsu
  have hcont1 : containsKey F 1 = true := hreach 1 (reach_root indices hne hpos)
  obtain ⟨root, hroot⟩ := lookupAssoc_some_of_contains hcont1
  refine ⟨root, ?_⟩
  unfold calculate_multi_merkle_root
  rw [if_neg (by omega)]
  dsimp only
  rw [if_neg (by omega)]
  rw [← hobj, ← hkeysdef, hscan]
  dsimp only
  rw [hroot]

/-- Witness for C4 with a single leaf at index 2. -/
theorem claim_C4_witness :
    ∃ root, calculate_multi_merkle_root natHash [5] [9] [2] = .ok root :=
  claim_C4 natHash [5] [9] [2] (by decide) (by decide) (by decide) (by decide)

end SszRs
